import Mathlib

set_option maxHeartbeats 1000000
set_option maxRecDepth 100000

/-
  Verification development for the cage sandbox launcher.

  The definitions below are a shallow embedding of the Go source:
  the rule model and resolver (sandbox_linux.go, resolver part), the
  macOS SBPL profile synthesis (sandbox_darwin.go), and the Linux
  write-allowlist emission (sandbox_linux.go, backend part).

  External collaborators of the source are made explicit parameters:
  the working directory used by filepath.Abs is a getwd : Option String
  argument (none models a failing os.Getwd), the filesystem stat used by
  the Linux backend is a stat : String -> Option Bool argument
  (none = error, some b = exists with isDir = b), and the home directory
  is a home : Option String argument.  Strings are modeled at the
  character level; all paths of interest are ASCII, where Go bytes and
  Lean characters coincide.
-/

namespace Cage

/-- Access mode bitset: the READ bit (Go AccessRead = 1 << 0). -/
def AccessRead : Nat := 1

/-- Access mode bitset: the WRITE bit (Go AccessWrite = 1 << 1). -/
def AccessWrite : Nat := 2

/-- Go AccessReadWrite = AccessRead | AccessWrite. -/
def AccessReadWrite : Nat := 3

/-- Go RuleAction: ActionAllow / ActionDeny. -/
inductive RuleAction where
  | ActionAllow
  | ActionDeny
deriving DecidableEq

open RuleAction

/-- Go RuleSource: provenance of a rule. -/
structure RuleSource where
  PresetName : String
  IsCLI : Bool
deriving DecidableEq

/-- Go ResolvedRule. -/
structure ResolvedRule where
  Path : String
  Mode : Nat
  Action : RuleAction
  Source : RuleSource
  IsGlob : Bool
  Except : List String
deriving DecidableEq

/-- Go ruleKey: identifies a rule by path and access mode. -/
structure RuleKey where
  path : String
  mode : Nat
deriving DecidableEq

/-- Go RuleConflict. -/
structure RuleConflict where
  Path : String
  Rules : List ResolvedRule
  Resolution : ResolvedRule
  IsSamePreset : Bool
deriving DecidableEq

/-- Go strings.HasPrefix(s, pre). -/
def goHasPref (s pre : String) : Bool := pre.toList.isPrefixOf s.toList

/-- Go strings.Contains(s, string(c)) for a single character needle. -/
def strContainsChar (s : String) (c : Char) : Bool := s.toList.contains c

/-
  Go path/filepath.Clean (unix flavour).  The lazybuf output is kept in
  normal order; btLoop mirrors the backtracking loop of the ".." case,
  whose condition inspects the character most recently truncated.
-/

/-- The backtracking loop of Clean for "..": repeatedly drop the last
output character while the output is longer than dotdot and the character
dropped in the previous step was not a separator.  The fuel argument is
a structural termination measure: each iteration shortens the output by
one, so fuel = out.length (as supplied by backtrack) never runs out
before the loop condition turns false. -/
def btLoopF : Nat → Nat → Char → List Char → List Char
  | 0, _, _, out => out
  | fuel + 1, dotdot, dropped, out =>
    if dotdot < out.length ∧ ¬ dropped = '/' then
      btLoopF fuel dotdot (out.getLastD '/') out.dropLast
    else out

/-- Entry to the backtracking of Clean: unconditionally drop one output
character (out.w is decremented before the loop), then run the loop. -/
def backtrack (dotdot : Nat) (out : List Char) : List Char :=
  btLoopF out.length dotdot (out.getLastD '/') out.dropLast

/-- The main scanning loop of Go Clean.  rooted is fixed; dotdot and the
output buffer are threaded through; the remaining input drives the loop.
The fuel argument is a structural termination measure: every iteration
consumes at least one input character, so fuel = input length (as
supplied by filepathClean) never runs out before the input is empty. -/
def cleanCoreF : Nat → Bool → Nat → List Char → List Char → List Char
  | _, _, _, out, [] => out
  | 0, _, _, out, _ => out
  | fuel + 1, rooted, dotdot, out, c :: rest =>
    if c = '/' then
      -- empty path element
      cleanCoreF fuel rooted dotdot out rest
    else if c = '.' ∧ (rest = [] ∨ rest.head? = some '/') then
      -- "." element
      cleanCoreF fuel rooted dotdot out rest
    else if c = '.' ∧ rest.head? = some '.' ∧ (rest.tail = [] ∨ rest.tail.head? = some '/') then
      -- ".." element
      (if dotdot < out.length then
        cleanCoreF fuel rooted dotdot (backtrack dotdot out) rest.tail
      else if rooted = false then
        (if 0 < out.length then
          cleanCoreF fuel rooted (out.length + 3) (out ++ ['/', '.', '.']) rest.tail
        else
          cleanCoreF fuel rooted 2 (out ++ ['.', '.']) rest.tail)
      else
        cleanCoreF fuel rooted dotdot out rest.tail)
    else
      -- real path element: add separator if needed, then copy the element
      cleanCoreF fuel rooted dotdot
        (out ++ (if (rooted = true ∧ ¬ out.length = 1) ∨ (rooted = false ∧ ¬ out.length = 0)
                 then ['/'] else [])
             ++ (c :: rest).takeWhile (fun x => ¬ x = '/'))
        ((c :: rest).dropWhile (fun x => ¬ x = '/'))

/-- Go filepath.IsAbs (unix): the path begins with a separator.  This is
also the rooted test of Clean. -/
def isAbsPath (path : String) : Bool :=
  match path.toList.head? with
  | some c => c = '/'
  | none => false

/-- The final step of Go Clean: an empty output buffer becomes ".". -/
def stringOfOut (out : List Char) : String :=
  if out = [] then "." else String.mk out

/-- Go filepath.Clean (unix). -/
def filepathClean (path : String) : String :=
  if path = "" then "."
  else if isAbsPath path then
    stringOfOut (cleanCoreF path.toList.length true 1 ['/'] path.toList.tail)
  else
    stringOfOut (cleanCoreF path.toList.length false 0 [] path.toList)

/-- Go filepath.Join for two elements: join the non-empty elements with a
separator and Clean the result. -/
def goJoin (a b : String) : String :=
  if a = "" ∧ b = "" then ""
  else if a = "" then filepathClean b
  else if b = "" then filepathClean a
  else filepathClean (a ++ "/" ++ b)

/-- Go filepath.Abs with the working directory made explicit: a rooted
path is Cleaned; otherwise the path is joined to the working directory,
and a missing working directory (failing os.Getwd) yields an error. -/
def filepathAbs (getwd : Option String) (path : String) : Option String :=
  if isAbsPath path then some (filepathClean path)
  else
    match getwd with
    | none => none
    | some wd => some (goJoin wd path)

/-- Go cleanPath (sandbox_linux.go): absolutize, falling back to the
original string on error, then Clean. -/
def cleanPath (getwd : Option String) (path : String) : String :=
  filepathClean ((filepathAbs getwd path).getD path)

/-- Go pathContains (sandbox_linux.go): both arguments are cleaned, then
child must be longer than parent, start with parent, and carry a
separator right after the parent prefix. -/
def pathContains (getwd : Option String) (parent child : String) : Bool :=
  if (cleanPath getwd child).toList.length ≤ (cleanPath getwd parent).toList.length then false
  else if ¬ ((cleanPath getwd parent).toList.isPrefixOf (cleanPath getwd child).toList) then false
  else if (cleanPath getwd parent).toList.length < (cleanPath getwd child).toList.length
       ∧ ¬ ((cleanPath getwd child).toList.getD (cleanPath getwd parent).toList.length ' ' = '/')
       then false
  else true

/-- Go isMoreSpecific: longer path wins. -/
def isMoreSpecific (path1 path2 : String) : Bool :=
  path2.toList.length < path1.toList.length

/-- Go isCarveOut: a broad deny with a specific allow strictly inside it. -/
def isCarveOut (getwd : Option String) (rule1 rule2 : ResolvedRule) : Bool :=
  if rule1.Action = ActionDeny ∧ rule2.Action = ActionAllow then
    pathContains getwd rule1.Path rule2.Path
  else if rule2.Action = ActionDeny ∧ rule1.Action = ActionAllow then
    pathContains getwd rule2.Path rule1.Path
  else false

/-
  The rule resolver.  The Go RuleResolver holds a map from ruleKey to a
  list of rules; the embedding uses an association list with the same
  membership semantics (Go map iteration order is unspecified, and every
  claim below is insensitive to bucket order up to the final sort).
-/

/-- The resolver state: buckets of rules keyed by (path, mode). -/
abbrev RuleResolver := List (RuleKey × List ResolvedRule)

/-- Go (*RuleResolver).addRule: append the rule to the bucket of its own
(path, mode) key, creating the bucket when absent. -/
def addRule (rule : ResolvedRule) : RuleResolver → RuleResolver
  | [] => [(⟨rule.Path, rule.Mode⟩, [rule])]
  | (k, b) :: rest =>
    if k = ⟨rule.Path, rule.Mode⟩ then (k, b ++ [rule]) :: rest
    else (k, b) :: addRule rule rest

/-- The ResolvedRule value built by Go AddAllowRule. -/
def mkAllowRule (getwd : Option String) (path : String) (source : RuleSource) : ResolvedRule :=
  ⟨cleanPath getwd path, AccessWrite, ActionAllow, source, strContainsChar path '*', []⟩

/-- Go (*RuleResolver).AddAllowRule. -/
def AddAllowRule (getwd : Option String) (path : String) (source : RuleSource)
    (r : RuleResolver) : RuleResolver :=
  addRule (mkAllowRule getwd path source) r

/-- The ResolvedRule value built by Go AddDenyRule: the path and every
exception path are canonicalized; nothing else is checked. -/
def mkDenyRule (getwd : Option String) (path : String) (except : List String)
    (source : RuleSource) : ResolvedRule :=
  ⟨cleanPath getwd path, AccessReadWrite, ActionDeny, source, strContainsChar path '*',
    except.map (cleanPath getwd)⟩

/-- Go (*RuleResolver).AddDenyRule. -/
def AddDenyRule (getwd : Option String) (path : String) (except : List String)
    (source : RuleSource) (r : RuleResolver) : RuleResolver :=
  addRule (mkDenyRule getwd path except source) r

/-- The ResolvedRule value built by Go AddReadRule. -/
def mkReadRule (getwd : Option String) (path : String) (source : RuleSource) : ResolvedRule :=
  ⟨cleanPath getwd path, AccessRead, ActionAllow, source, strContainsChar path '*', []⟩

/-- Go (*RuleResolver).AddReadRule. -/
def AddReadRule (getwd : Option String) (path : String) (source : RuleSource)
    (r : RuleResolver) : RuleResolver :=
  addRule (mkReadRule getwd path source) r

/-- The comparison of Go resolveConflict (the sort.Slice less function):
CLI beats preset, then allow beats deny, then the longer path sorts
first. -/
def ruleLess (rule1 rule2 : ResolvedRule) : Bool :=
  if ¬ rule1.Source.IsCLI = rule2.Source.IsCLI then rule1.Source.IsCLI
  else if ¬ rule1.Action = rule2.Action then rule1.Action = ActionAllow
  else isMoreSpecific rule1.Path rule2.Path

/-- A minimal element of the bucket under ruleLess.  Go resolveConflict
sorts the bucket with the (unstable) sort.Slice and returns element 0,
that is, some minimal element under the less function; the fold selects
one such element. -/
def chooseWinner (r : ResolvedRule) (rs : List ResolvedRule) : ResolvedRule :=
  rs.foldl (fun acc x => if ruleLess x acc then x else acc) r

/-- Go resolveConflict.  The Go function panics on an empty slice; the
embedding returns none there. -/
def resolveConflict : List ResolvedRule → Option ResolvedRule
  | [] => none
  | r :: rs => some (chooseWinner r rs)

/-- The conflict detection inside Go Resolve: some ordered pair of rules
in the bucket has different actions and is not a carve-out. -/
def hasRealConflict (getwd : Option String) : List ResolvedRule → Bool
  | [] => false
  | r :: rs =>
    rs.any (fun r2 => ¬ r.Action = r2.Action ∧ isCarveOut getwd r r2 = false)
      || hasRealConflict getwd rs

/-- The same-preset detection inside Go Resolve: every rule after the
first has the preset name of the first. -/
def isSamePresetList : List ResolvedRule → Bool
  | [] => true
  | r :: rs => rs.all (fun x => x.Source.PresetName = r.Source.PresetName)

/-- One insertion step of the path sort used by sortRulesBySpecificity. -/
def insertByPath (r : ResolvedRule) : List ResolvedRule → List ResolvedRule
  | [] => [r]
  | x :: xs => if r.Path < x.Path then r :: x :: xs else x :: insertByPath r xs

/-- Go sortRulesBySpecificity: sort rules alphabetically by path.
Implemented as an insertion sort; the claims below depend only on the
output being a permutation of the input. -/
def sortRulesBySpecificity (rules : List ResolvedRule) : List ResolvedRule :=
  rules.foldr insertByPath []

/-- The contribution of one bucket to the write-rules list inside Go
Resolve. -/
def writeContrib (k : RuleKey) (winner : ResolvedRule) : List ResolvedRule :=
  if ¬ k.mode &&& AccessWrite = 0 then [winner] else []

/-- The contribution of one bucket to the read-rules list inside Go
Resolve: only when the mode has the READ bit and is not WRITE alone. -/
def readContrib (k : RuleKey) (winner : ResolvedRule) : List ResolvedRule :=
  if ¬ k.mode &&& AccessRead = 0 ∧ ¬ k.mode = AccessWrite then [winner] else []

/-- The per-bucket loop of Go Resolve: empty buckets are skipped, a
singleton bucket emits its rule without conflict detection, a larger
bucket emits the resolveConflict winner and, when some pair is a real
(non-carve-out) conflict, a RuleConflict record.  (For a singleton
bucket chooseWinner r [] = r and the conflict guard is off, so the two
non-empty cases of the Go loop collapse into one.) -/
def resolveGo (getwd : Option String) :
    RuleResolver → List ResolvedRule × List ResolvedRule × List RuleConflict
  | [] => ([], [], [])
  | (k, bucket) :: rest =>
    let acc := resolveGo getwd rest
    match bucket with
    | [] => acc
    | r :: rs =>
      (writeContrib k (chooseWinner r rs) ++ acc.1,
       readContrib k (chooseWinner r rs) ++ acc.2.1,
       (if ¬ rs = [] ∧ hasRealConflict getwd (r :: rs) then
          [RuleConflict.mk k.path (r :: rs) (chooseWinner r rs) (isSamePresetList (r :: rs))]
        else []) ++ acc.2.2)

/-- Go (*RuleResolver).Resolve: process every bucket, then sort the two
output sequences by path. -/
def Resolve (getwd : Option String) (r : RuleResolver) :
    List ResolvedRule × List ResolvedRule × List RuleConflict :=
  let acc := resolveGo getwd r
  (sortRulesBySpecificity acc.1, sortRulesBySpecificity acc.2.1, acc.2.2)

/-
  The macOS backend (sandbox_darwin.go).
-/

/-- Go SandboxConfig as consumed by the macOS backend. -/
structure SandboxConfig where
  AllowAll : Bool
  AllowKeychain : Bool
  Strict : Bool
  WriteRules : List ResolvedRule
  ReadRules : List ResolvedRule
  Conflicts : List RuleConflict
  Command : String
  Args : List String
deriving DecidableEq

/-- Go escapePathForSandbox, first pass: double every backslash. -/
def escapeBackslashes : List Char → List Char
  | [] => []
  | c :: rest =>
    if c = '\\' then '\\' :: '\\' :: escapeBackslashes rest
    else c :: escapeBackslashes rest

/-- Go escapePathForSandbox, second pass: backslash-escape every double
quote. -/
def escapeQuotes : List Char → List Char
  | [] => []
  | c :: rest =>
    if c = '"' then '\\' :: '"' :: escapeQuotes rest
    else c :: escapeQuotes rest

/-- Go escapePathForSandbox. -/
def escapePathForSandbox (path : String) : String :=
  String.mk (escapeQuotes (escapeBackslashes path.toList))

/-- The regex metacharacters escaped by Go globToSBPLRegex. -/
def isRegexMeta (c : Char) : Bool :=
  ['.', '(', ')', '[', ']', '\x7b', '\x7d', '+', '^', '$', '|', '\\'].contains c

/-- The character translation loop of Go globToSBPLRegex. -/
def globCore : List Char → List Char
  | [] => []
  | '*' :: '*' :: rest => '.' :: '*' :: globCore rest
  | '*' :: rest => '[' :: '^' :: '/' :: ']' :: '*' :: globCore rest
  | '?' :: rest => '[' :: '^' :: '/' :: ']' :: globCore rest
  | c :: rest => if isRegexMeta c then '\\' :: c :: globCore rest else c :: globCore rest

/-- Go globToSBPLRegex: anchor, translate, append the suffix. -/
def globToSBPLRegex (pattern : String) : String :=
  "^" ++ String.mk (globCore pattern.toList) ++ "($|/)"

/-- Go emitDenyRule: one deny line for the given access mode, regex form
for glob rules and subpath form for literal rules. -/
def emitDenyRule (rule : ResolvedRule) (mode : Nat) : String :=
  let modeStr := if mode = AccessRead then "file-read-data" else "file-write*"
  if rule.IsGlob then
    "(deny " ++ modeStr ++ " (regex #\"" ++ globToSBPLRegex rule.Path ++ "\"))\n"
  else
    "(deny " ++ modeStr ++ " (subpath \"" ++ escapePathForSandbox rule.Path ++ "\"))\n"

/-- The pair of allow lines for a write-allow rule. -/
def allowWriteLines (rule : ResolvedRule) : String :=
  "(allow file-write* (subpath \"" ++ escapePathForSandbox rule.Path ++ "\"))\n"
    ++ "(allow file-write* (literal \"" ++ escapePathForSandbox rule.Path ++ "\"))\n"

/-- The pair of read-data allow lines for a path. -/
def allowReadDataLines (path : String) : String :=
  "(allow file-read-data (subpath \"" ++ escapePathForSandbox path ++ "\"))\n"
    ++ "(allow file-read-data (literal \"" ++ escapePathForSandbox path ++ "\"))\n"

/-- Go generateSandboxProfile.  The home directory consulted for the
keychain allowance is an explicit argument (none models a failing
os.UserHomeDir, the only error path of the Go function). -/
def generateSandboxProfile (home : Option String) (config : SandboxConfig) : Option String :=
  let base := "(version 1)\n(import \"system.sb\")\n(allow default)\n"
  if config.AllowAll then some base
  else
    let keychain : Option String :=
      if config.AllowKeychain then
        home.map (fun h => "(allow file-write* (subpath \"" ++ h ++ "/Library/Keychains\"))\n")
      else some ""
    match keychain with
    | none => none
    | some kc =>
      let p := base
        ++ "(deny file-write*)\n"
        ++ "(allow file-write* (regex #\"^/private/var/folders/[^/]+/[^/]+/(C|T|0)($|/)\"))\n"
        ++ kc
        -- write deny rules
        ++ String.join ((config.WriteRules.filter (fun r => r.Action = ActionDeny)).map
             (fun r => emitDenyRule r AccessWrite))
        -- read denies for AccessReadWrite rules (applies in all modes)
        ++ String.join ((config.WriteRules.filter
             (fun r => r.Action = ActionDeny ∧ ¬ r.Mode &&& AccessRead = 0)).map
             (fun r => emitDenyRule r AccessRead))
        -- write allow rules
        ++ String.join ((config.WriteRules.filter (fun r => r.Action = ActionAllow)).map
             allowWriteLines)
        -- read carve-outs from write deny rules
        ++ String.join ((config.WriteRules.filter (fun r => r.Action = ActionDeny)).map
             (fun r => String.join (r.Except.map allowReadDataLines)))
        -- strict mode block
        ++ (if config.Strict then
              "(deny file-read-data)\n"
              ++ "(allow file-read-data (literal \"/\"))\n"
              ++ String.join ((config.ReadRules.filter (fun r => r.Action = ActionDeny)).map
                   (fun r => emitDenyRule r AccessRead))
              ++ String.join ((config.ReadRules.filter (fun r => r.Action = ActionAllow)).map
                   (fun r => allowReadDataLines r.Path))
              ++ String.join ((config.WriteRules.filter (fun r => r.Action = ActionAllow)).map
                   (fun r => allowReadDataLines r.Path))
              ++ String.join ((config.ReadRules.filter (fun r => r.Action = ActionDeny)).map
                   (fun r => String.join (r.Except.map allowReadDataLines)))
            else "")
      some p

/-- The number of occurrences of pat as a substring of s (counted at
every starting position). -/
def countOccur (pat : List Char) : List Char → Nat
  | [] => 0
  | c :: rest => (if pat.isPrefixOf (c :: rest) then 1 else 0) + countOccur pat rest

/-- Occurrences of pat in a string, including a possible match of the
empty tail position. -/
def countSub (pat s : String) : Nat :=
  (if pat.toList.isPrefixOf ([] : List Char) then 1 else 0) + countOccur pat.toList s.toList

/-
  The Linux backend (sandbox_linux.go): the write-deny set and the
  write-allowlist emission loop.
-/

/-- Go DenyRule (sandbox.go). -/
structure DenyRule where
  Pattern : String
  Modes : Nat
  IsGlob : Bool
  Except : List String
deriving DecidableEq

/-- The Landlock rules the write-allow loop can install. -/
inductive LandlockRule where
  | rwDirsIoctl (path : String)
  | rwDirsRefer (path : String)
  | rwFilesIoctl (path : String)
  | rwFilesPlain (path : String)
deriving DecidableEq

/-- The path carried by a Landlock rule. -/
def LandlockRule.rulePath : LandlockRule → String
  | .rwDirsIoctl p => p
  | .rwDirsRefer p => p
  | .rwFilesIoctl p => p
  | .rwFilesPlain p => p

/-- filepath.Abs with the fallback to the original path on error, as
written inline throughout runInSandbox. -/
def absOr (getwd : Option String) (path : String) : String :=
  (filepathAbs getwd path).getD path

/-- The write deny set of runInSandbox: absolutized patterns of the
non-glob deny rules whose mode has the WRITE bit. -/
def writeDenySet (getwd : Option String) (denyRules : List DenyRule) : List String :=
  (denyRules.filter (fun r => ¬ r.Modes &&& AccessWrite = 0 ∧ r.IsGlob = false)).map
    (fun r => absOr getwd r.Pattern)

/-- Go shouldDenyWrite: the path is in the deny set or under a denied
directory. -/
def shouldDenyWrite (dset : List String) (path : String) : Bool :=
  dset.contains path || dset.any (fun denied => goHasPref path (denied ++ "/"))

/-- The informational diagnostic emitted when a write allow is skipped. -/
def skipDiag (path : String) : String :=
  "cage: info: skipping write allow for " ++ path ++ " (matches deny rule)\n"

/-- The result of the write-allowlist emission: installed Landlock rules
and stderr diagnostics. -/
structure WriteAllowResult where
  rules : List LandlockRule
  diags : List String
deriving DecidableEq

/-- The write-allowlist emission loop of runInSandbox (the loop over
config.AllowedPaths): skip paths matching the deny set with a
diagnostic, skip non-existent paths silently, otherwise install a
read+write rule whose flavour depends on directory-ness and /dev. -/
def writeAllowLoop (getwd : Option String) (stat : String → Option Bool)
    (dset : List String) : List String → WriteAllowResult
  | [] => ⟨[], []⟩
  | path :: rest =>
    let acc := writeAllowLoop getwd stat dset rest
    let absPath := absOr getwd path
    if shouldDenyWrite dset absPath then
      ⟨acc.rules, skipDiag path :: acc.diags⟩
    else
      match stat absPath with
      | none => acc
      | some true =>
        if absPath = "/dev" ∨ goHasPref absPath "/dev/" then
          ⟨.rwDirsIoctl absPath :: acc.rules, acc.diags⟩
        else
          ⟨.rwDirsRefer absPath :: acc.rules, acc.diags⟩
      | some false =>
        if goHasPref absPath "/dev/" then
          ⟨.rwFilesIoctl absPath :: acc.rules, acc.diags⟩
        else
          ⟨.rwFilesPlain absPath :: acc.rules, acc.diags⟩

/-
  Specification vocabulary used by the theorems below.
-/

/-- Invariant of the Clean output buffer for rooted inputs: it starts
with a separator and its second character, when present, is not a
separator. -/
def RootedOut (out : List Char) : Prop :=
  out[0]? = some '/' ∧ ¬ out[1]? = some '/'

/-- Invariant of the Clean output buffer for relative inputs: it does not
start with a separator. -/
def UnrootedOut (out : List Char) : Prop :=
  ¬ out[0]? = some '/'

/-- The rules carrying exactly the (path, mode) data of a key. -/
def keyPred (k : RuleKey) (r : ResolvedRule) : Bool :=
  r.Path == k.path && r.Mode == k.mode

/-- Well-formedness of a resolver state, guaranteed by construction
through addRule: keys are distinct (it embeds a Go map) and every rule
sits in the bucket of its own (path, mode) key. -/
def ResolverWF (s : RuleResolver) : Prop :=
  (s.map (fun kb => kb.1)).Nodup ∧
    ∀ kb ∈ s, ∀ r ∈ kb.2, r.Path = kb.1.path ∧ r.Mode = kb.1.mode

/-- Numeric rank of the CLI tier (CLI sorts first). -/
def rankCLI (r : ResolvedRule) : Nat := if r.Source.IsCLI then 0 else 1

/-- Numeric rank of the action tier (allow sorts first). -/
def rankAct (r : ResolvedRule) : Nat := if r.Action = ActionAllow then 0 else 1

/-- The READ|WRITE deny rule for /Users/test produced by the resolver for
a CLI deny flag. -/
def denyUsersTest : ResolvedRule :=
  ⟨"/Users/test", AccessReadWrite, ActionDeny, ⟨"", true⟩, false, []⟩

/-- The strict-mode SandboxConfig in which that deny appears, as the
resolver partitions it, in both the write-rules and the read-rules
list. -/
def strictDenyConfig : SandboxConfig :=
  ⟨false, false, true, [denyUsersTest], [denyUsersTest], [], "echo", []⟩

/-- A preset deny rule on /work used as a concrete conflict input. -/
def presetDenyWork : ResolvedRule := ⟨"/work", 2, ActionDeny, ⟨"preset-a", false⟩, false, []⟩

/-- A CLI allow rule on /work used as a concrete conflict input. -/
def cliAllowWork : ResolvedRule := ⟨"/work", 2, ActionAllow, ⟨"", true⟩, false, []⟩

/-
  Lemmas on the path canonicalizer.
-/

theorem rootedOut_dropLast {out : List Char} (h : RootedOut out) (hl : 2 ≤ out.length) :
    RootedOut out.dropLast := by
  obtain ⟨h0, h1⟩ := h
  rw [RootedOut, List.dropLast_eq_take]
  refine ⟨?_, ?_⟩
  · rw [List.getElem?_take, if_pos (by omega)]
    exact h0
  · rw [List.getElem?_take]
    split
    · exact h1
    · simp

theorem unrootedOut_dropLast {out : List Char} (h : UnrootedOut out) :
    UnrootedOut out.dropLast := by
  rw [UnrootedOut, List.dropLast_eq_take]
  rw [List.getElem?_take]
  split
  · exact h
  · simp

theorem btLoopF_rooted : ∀ (fuel : Nat) {dropped : Char} {out : List Char},
    RootedOut out → RootedOut (btLoopF fuel 1 dropped out) := by
  intro fuel
  induction fuel with
  | zero => intro d out h; exact h
  | succ n ih =>
    intro d out h
    rw [btLoopF]
    split
    · rename_i hc
      exact ih (rootedOut_dropLast h (by omega))
    · exact h

theorem btLoopF_unrooted : ∀ (fuel dotdot : Nat) {dropped : Char} {out : List Char},
    UnrootedOut out → UnrootedOut (btLoopF fuel dotdot dropped out) := by
  intro fuel
  induction fuel with
  | zero => intro dd d out h; exact h
  | succ n ih =>
    intro dd d out h
    rw [btLoopF]
    split
    · exact ih dd (unrootedOut_dropLast h)
    · exact h

theorem backtrack_rooted {out : List Char} (h : RootedOut out) (hl : 2 ≤ out.length) :
    RootedOut (backtrack 1 out) :=
  btLoopF_rooted out.length (rootedOut_dropLast h hl)

theorem backtrack_unrooted {dotdot : Nat} {out : List Char} (h : UnrootedOut out) :
    UnrootedOut (backtrack dotdot out) :=
  btLoopF_unrooted out.length dotdot (unrootedOut_dropLast h)

theorem rootedOut_length_pos {out : List Char} (h : RootedOut out) : 0 < out.length := by
  rcases out with _ | ⟨c, rest⟩
  · simp [RootedOut] at h
  · simp

theorem takeWhile_notSlash_head {c : Char} (rest : List Char) (hc : ¬ c = '/') :
    ((c :: rest).takeWhile (fun x => ¬ x = '/'))[0]? = some c := by
  simp [List.takeWhile_cons, hc]

theorem rootedOut_extend {out seg : List Char} {c : Char} (h : RootedOut out)
    (hseg : seg[0]? = some c) (hc : ¬ c = '/') :
    RootedOut ((out ++ (if ¬ out.length = 1 then ['/'] else [])) ++ seg) := by
  obtain ⟨h0, h1⟩ := h
  have hpos : 0 < out.length := rootedOut_length_pos ⟨h0, h1⟩
  by_cases hone : out.length = 1
  · rw [if_neg (by omega)]
    rcases out with _ | ⟨a, _ | ⟨b, t⟩⟩
    · simp at hpos
    · simp at h0
      subst h0
      refine ⟨by simp, ?_⟩
      simpa [hseg] using fun hcontra => hc hcontra
    · simp at hone
  · rw [if_pos (by omega)]
    have hlen2 : 2 ≤ out.length := by omega
    refine ⟨?_, ?_⟩
    · rw [List.getElem?_append_left
        (by simp only [List.length_append, List.length_cons, List.length_nil]; omega)]
      rw [List.getElem?_append_left (by omega)]
      exact h0
    · rw [List.getElem?_append_left
        (by simp only [List.length_append, List.length_cons, List.length_nil]; omega)]
      rw [List.getElem?_append_left (by omega)]
      exact h1

theorem cleanCoreF_rooted : ∀ (fuel : Nat) (l out : List Char),
    RootedOut out → RootedOut (cleanCoreF fuel true 1 out l) := by
  intro fuel
  induction fuel with
  | zero =>
    intro l out h
    rcases l with _ | ⟨c, rest⟩
    · exact h
    · exact h
  | succ n ih =>
    intro l out h
    rcases l with _ | ⟨c, rest⟩
    · exact h
    · rw [cleanCoreF]
      split
      · exact ih rest out h
      · split
        · exact ih rest out h
        · split
          · split
            · rename_i hlt
              exact ih rest.tail _ (backtrack_rooted h (by omega))
            · split
              · rename_i hfalse
                simp at hfalse
              · exact ih rest.tail out h
          · rename_i hc1 _ _
            refine ih _ _ ?_
            have hcond : ((true = true ∧ ¬ out.length = 1) ∨ (true = false ∧ ¬ out.length = 0))
                ↔ ¬ out.length = 1 := by simp
            rw [List.append_assoc] at *
            have := rootedOut_extend h (takeWhile_notSlash_head rest hc1) hc1
            by_cases hone : out.length = 1
            · simpa [hone, List.append_assoc] using this
            · simpa [hone, List.append_assoc] using this

theorem unrootedOut_append {out l : List Char} (h : UnrootedOut out) (hne : ¬ out = []) :
    UnrootedOut (out ++ l) := by
  rw [UnrootedOut, List.getElem?_append_left (List.length_pos.mpr hne)]
  exact h

theorem cleanCoreF_unrooted : ∀ (fuel : Nat) (l : List Char) (dotdot : Nat) (out : List Char),
    UnrootedOut out → UnrootedOut (cleanCoreF fuel false dotdot out l) := by
  intro fuel
  induction fuel with
  | zero =>
    intro l dd out h
    rcases l with _ | ⟨c, rest⟩
    · exact h
    · exact h
  | succ n ih =>
    intro l dd out h
    rcases l with _ | ⟨c, rest⟩
    · exact h
    · rw [cleanCoreF]
      split
      · exact ih rest dd out h
      · split
        · exact ih rest dd out h
        · split
          · split
            · exact ih rest.tail dd _ (backtrack_unrooted h)
            · split
              · split
                · refine ih rest.tail _ _ ?_
                  rename_i hpos
                  exact unrootedOut_append h (by intro hnil; rw [hnil] at hpos; simp at hpos)
                · rename_i hzero
                  have hnil : out = [] := by
                    rcases out with _ | _
                    · rfl
                    · simp at hzero
                  subst hnil
                  refine ih rest.tail 2 _ ?_
                  rw [UnrootedOut]
                  simp
              · exact ih rest.tail dd out h
          · rename_i hc1 _ _
            refine ih _ dd _ ?_
            have hseg := takeWhile_notSlash_head rest hc1
            by_cases hnil : out = []
            · subst hnil
              rw [UnrootedOut]
              rw [if_neg (by simp)]
              simp only [List.nil_append]
              intro hcontra
              rw [hseg] at hcontra
              exact hc1 (by injection hcontra)
            · exact unrootedOut_append (unrootedOut_append h hnil) (by simp [hnil])

theorem isAbsPath_iff {s : String} : isAbsPath s = true ↔ s.toList[0]? = some '/' := by
  rw [← List.head?_eq_getElem?]
  unfold isAbsPath
  cases h : s.toList.head? with
  | none => simp
  | some c => simp

theorem stringOfOut_toList (out : List Char) : (stringOfOut out).toList = if out = [] then ['.'] else out := by
  rw [stringOfOut]
  split
  · rfl
  · rfl

theorem filepathClean_ne_nil (s : String) : ¬ (filepathClean s).toList = [] := by
  rw [filepathClean]
  split
  · decide
  · split
    · rw [stringOfOut_toList]
      split
      · simp
      · assumption
    · rw [stringOfOut_toList]
      split
      · simp
      · assumption

theorem filepathClean_rooted {s : String} (h : isAbsPath s = true) :
    RootedOut (filepathClean s).toList := by
  have hne : ¬ s = "" := by
    intro he
    subst he
    simp [isAbsPath] at h
  rw [filepathClean, if_neg hne, if_pos h, stringOfOut_toList]
  have hr := cleanCoreF_rooted s.toList.length s.toList.tail ['/'] (by constructor <;> simp)
  split
  · rename_i hnil
    rw [hnil] at hr
    rcases hr with ⟨h0, _⟩
    simp at h0
  · exact hr

theorem filepathClean_unrooted {s : String} (h : isAbsPath s = false) :
    UnrootedOut (filepathClean s).toList := by
  by_cases hne : s = ""
  · subst hne
    rw [UnrootedOut]
    decide
  · rw [filepathClean, if_neg hne, if_neg (by simp [h]), stringOfOut_toList]
    have hu := cleanCoreF_unrooted s.toList.length s.toList 0 [] (by rw [UnrootedOut]; simp)
    split
    · rw [UnrootedOut]
      decide
    · exact hu

theorem filepathClean_secondChar (s : String)
    (h : (filepathClean s).toList[0]? = some '/') :
    ¬ (filepathClean s).toList[1]? = some '/' := by
  cases habs : isAbsPath s with
  | false => exact absurd h (filepathClean_unrooted habs)
  | true => exact (filepathClean_rooted habs).2

theorem cleanPath_is_clean (getwd : Option String) (path : String) :
    ∃ q, cleanPath getwd path = filepathClean q :=
  ⟨_, rfl⟩

theorem cleanPath_ne_nil (getwd : Option String) (path : String) :
    ¬ (cleanPath getwd path).toList = [] :=
  filepathClean_ne_nil _

theorem cleanPath_secondChar (getwd : Option String) (path : String)
    (h : (cleanPath getwd path).toList[0]? = some '/') :
    ¬ (cleanPath getwd path).toList[1]? = some '/' :=
  filepathClean_secondChar _ h

theorem cleanPath_root (getwd : Option String) : cleanPath getwd "/" = "/" := by
  have habs : filepathAbs getwd "/" = some (filepathClean "/") := by
    unfold filepathAbs
    rw [if_pos (by decide)]
  rw [cleanPath, habs, Option.getD_some]
  decide

theorem root_pref {l : List Char} (h : ("/").toList.isPrefixOf l = true) :
    l[0]? = some '/' := by
  have h' : (['/'] : List Char).isPrefixOf l = true := h
  rcases l with _ | ⟨c, t⟩
  · simp [List.isPrefixOf] at h'
  · have hbeq : ('/' : Char) == c := by
      simpa [List.isPrefixOf] using h'
    have hc : '/' = c := eq_of_beq hbeq
    simp [← hc]

theorem pathContains_self (getwd : Option String) (p : String) :
    pathContains getwd p p = false := by
  rw [pathContains, if_pos (le_refl _)]

theorem pathContains_root (getwd : Option String) (child : String) :
    pathContains getwd "/" child = false := by
  have hone : ("/" : String).toList.length = 1 := rfl
  rw [pathContains, cleanPath_root]
  by_cases h1 : (cleanPath getwd child).toList.length ≤ ("/" : String).toList.length
  · rw [if_pos h1]
  · rw [if_neg h1]
    by_cases h2 : ("/" : String).toList.isPrefixOf (cleanPath getwd child).toList
    · rw [if_neg (by simpa using h2)]
      rw [hone] at h1
      have hlen : 1 < (cleanPath getwd child).toList.length := by omega
      have h0 : (cleanPath getwd child).toList[0]? = some '/' := root_pref h2
      have hsecond := cleanPath_secondChar getwd child h0
      rw [if_pos ?_]
      constructor
      · rw [hone]
        exact hlen
      · rw [hone, List.getD_eq_getElem?_getD]
        intro hcontra
        rcases hsome : (cleanPath getwd child).toList[1]? with _ | x
        · rw [List.getElem?_eq_none_iff] at hsome
          omega
        · rw [hsome] at hcontra
          simp only [Option.getD_some] at hcontra
          exact hsecond (by rw [hsome, hcontra])
    · rw [if_pos (by simpa using h2)]

theorem getElem?_some_lt {l : List Char} {n : Nat} {a : Char} (h : l[n]? = some a) :
    n < l.length := by
  by_contra hle
  rw [List.getElem?_eq_none_iff.mpr (by omega)] at h
  exact Option.noConfusion h

theorem isPrefixOf_append_slash : ∀ {l1 l2 : List Char}, l1.isPrefixOf l2 = true →
    l2[l1.length]? = some '/' → (l1 ++ ['/']).isPrefixOf l2 = true := by
  intro l1
  induction l1 with
  | nil =>
    intro l2 _ hidx
    rcases l2 with _ | ⟨d, t2⟩
    · simp at hidx
    · rw [List.length_nil, List.getElem?_cons_zero] at hidx
      have hd : d = '/' := Option.some.inj hidx
      subst hd
      simp [List.isPrefixOf]
  | cons c t ih =>
    intro l2 h hidx
    rcases l2 with _ | ⟨d, t2⟩
    · simp [List.isPrefixOf] at h
    · simp only [List.isPrefixOf, Bool.and_eq_true] at h
      rw [List.length_cons, List.getElem?_cons_succ] at hidx
      simp only [List.cons_append, List.isPrefixOf, Bool.and_eq_true]
      exact ⟨h.1, ih h.2 hidx⟩

theorem pathContains_canonical_iff (getwd : Option String) (parent child : String)
    (hp : cleanPath getwd parent = parent) (hc : cleanPath getwd child = child) :
    pathContains getwd parent child = true ↔
      (goHasPref child parent = true ∧ child.toList[parent.toList.length]? = some '/') := by
  rw [pathContains, hp, hc, goHasPref]
  by_cases h1 : child.toList.length ≤ parent.toList.length
  · rw [if_pos h1]
    simp only [Bool.false_eq_true, false_iff, not_and]
    intro _ hidx
    have := getElem?_some_lt hidx
    omega
  · rw [if_neg h1]
    by_cases h2 : parent.toList.isPrefixOf child.toList
    · rw [if_neg (by simpa using h2)]
      by_cases h3 : child.toList.getD parent.toList.length ' ' = '/'
      · rw [if_neg (fun hcon => hcon.2 h3)]
        simp only [true_iff]
        refine ⟨by simpa using h2, ?_⟩
        rcases hsome : child.toList[parent.toList.length]? with _ | x
        · rw [List.getElem?_eq_none_iff] at hsome
          exact absurd hsome h1
        · rw [List.getD_eq_getElem?_getD, hsome, Option.getD_some] at h3
          rw [h3]
      · rw [if_pos ⟨by omega, h3⟩]
        simp only [Bool.false_eq_true, false_iff, not_and]
        intro _ hidx
        apply h3
        rw [List.getD_eq_getElem?_getD, hidx, Option.getD_some]
    · rw [if_pos (by simpa using h2)]
      simp only [Bool.false_eq_true, false_iff, not_and]
      intro hpre
      exact absurd hpre (by simpa using h2)

/-- Claim C5 (amended): with parent and child in canonical form (fixed
points of cleanPath, as all resolver-stored paths are), pathContains
returns true iff child begins with parent and the character right after
the parent prefix is the separator; equal paths are never contained; and
containment implies child starts with parent + "/" and is longer. -/
theorem c5_pathContains_canonical (getwd : Option String) (parent child : String)
    (hp : cleanPath getwd parent = parent) (hc : cleanPath getwd child = child) :
    (pathContains getwd parent child = true ↔
      (goHasPref child parent = true ∧ child.toList[parent.toList.length]? = some '/'))
    ∧ (∀ p : String, pathContains getwd p p = false)
    ∧ (pathContains getwd parent child = true →
        goHasPref child (parent ++ "/") = true ∧
          parent.toList.length < child.toList.length) := by
  refine ⟨pathContains_canonical_iff getwd parent child hp hc,
    fun p => pathContains_self getwd p, ?_⟩
  intro htrue
  obtain ⟨hpre, hidx⟩ := (pathContains_canonical_iff getwd parent child hp hc).mp htrue
  refine ⟨?_, ?_⟩
  · rw [goHasPref] at hpre ⊢
    have happ : (parent ++ "/").toList = parent.toList ++ ['/'] := rfl
    rw [happ]
    exact isPrefixOf_append_slash hpre hidx
  · exact getElem?_some_lt hidx

/-- Claim C5, counterexample to the unrestricted statement: pathContains
cleans its arguments first, so for the raw pair ("/a/", "/a/b") it
returns true although the child does not extend the parent by a
separator and does not start with parent + "/". -/
theorem c5_counterexample :
    pathContains none "/a/" "/a/b" = true
    ∧ ¬ ("/a/b" : String).toList[("/a/" : String).toList.length]? = some '/'
    ∧ goHasPref "/a/b" ("/a/" ++ "/") = false := by decide

/-- Witness for the amended C5 at a concrete canonical pair. -/
theorem c5_pathContains_canonical_witness :
    (pathContains none "/home/user" "/home/user/foo" = true ↔
      (goHasPref "/home/user/foo" "/home/user" = true ∧
        ("/home/user/foo" : String).toList[("/home/user" : String).toList.length]? = some '/'))
    ∧ (∀ p : String, pathContains none p p = false)
    ∧ (pathContains none "/home/user" "/home/user/foo" = true →
        goHasPref "/home/user/foo" ("/home/user" ++ "/") = true ∧
          ("/home/user" : String).toList.length < ("/home/user/foo" : String).toList.length) :=
  c5_pathContains_canonical none "/home/user" "/home/user/foo" (by decide) (by decide)

/-- Claim C7 (amended): when absolutization fails, cleanPath returns the
lexical clean of the original input (not the original string verbatim);
when absolutization succeeds, it returns the lexical clean of the
absolutized path. -/
theorem c7_cleanPath_amended (getwd : Option String) (path : String) :
    (filepathAbs getwd path = none → cleanPath getwd path = filepathClean path)
    ∧ (∀ a, filepathAbs getwd path = some a → cleanPath getwd path = filepathClean a) := by
  constructor
  · intro h
    rw [cleanPath, h, Option.getD_none]
  · intro a h
    rw [cleanPath, h, Option.getD_some]

/-- Claim C7, counterexample to the claim as stated: on the relative
path "a//b" with a failing working directory lookup, absolutization
fails, yet cleanPath does not return the original string unchanged (it
returns its lexical clean "a/b"). -/
theorem c7_counterexample :
    filepathAbs none "a//b" = none ∧ ¬ cleanPath none "a//b" = "a//b" := by decide

/-- Witness for the amended C7 at the same input. -/
theorem c7_cleanPath_amended_witness :
    cleanPath none "a//b" = filepathClean "a//b" ∧ cleanPath none "/x/./y" = filepathClean "/x/y" :=
  ⟨(c7_cleanPath_amended none "a//b").1 (by decide),
    (c7_cleanPath_amended none "/x/./y").2 "/x/y" (by decide)⟩

/-- Claim C10: pathContains with the root path "/" as parent always
returns false (the cleaned child never has a separator at index 1), so a
deny rule on "/" never has a carve-out and no exception can be contained
in it. -/
theorem c10_root_no_containment (getwd : Option String) (child : String) :
    pathContains getwd "/" child = false
    ∧ (∀ d a : ResolvedRule, d.Path = "/" → d.Action = ActionDeny → a.Action = ActionAllow →
        isCarveOut getwd d a = false ∧ isCarveOut getwd a d = false) := by
  refine ⟨pathContains_root getwd child, ?_⟩
  intro d a hpath hd ha
  constructor
  · rw [isCarveOut, if_pos ⟨hd, ha⟩, hpath]
    exact pathContains_root getwd a.Path
  · rw [isCarveOut, if_neg (by simp [ha]), if_pos ⟨hd, ha⟩, hpath]
    exact pathContains_root getwd a.Path

/-- Witness for C10 at a concrete child and rule pair. -/
theorem c10_root_no_containment_witness :
    pathContains none "/" "/etc" = false
    ∧ isCarveOut none ⟨"/", 3, ActionDeny, ⟨"", true⟩, false, []⟩
        ⟨"/etc", 2, ActionAllow, ⟨"", true⟩, false, []⟩ = false
    ∧ isCarveOut none ⟨"/etc", 2, ActionAllow, ⟨"", true⟩, false, []⟩
        ⟨"/", 3, ActionDeny, ⟨"", true⟩, false, []⟩ = false := by
  have h := c10_root_no_containment none "/etc"
  have h2 := h.2 ⟨"/", 3, ActionDeny, ⟨"", true⟩, false, []⟩
    ⟨"/etc", 2, ActionAllow, ⟨"", true⟩, false, []⟩ rfl rfl rfl
  exact ⟨h.1, h2.1, h2.2⟩

theorem rooted_isAbs_clean {s : String} (h : isAbsPath s = true) :
    isAbsPath (filepathClean s) = true :=
  isAbsPath_iff.mpr (filepathClean_rooted h).1

theorem cleanPath_rooted_of_cwd {cwd : String} (hcwd : isAbsPath cwd = true) (x : String) :
    (cleanPath (some cwd) x).toList[0]? = some '/' := by
  cases habs : isAbsPath x with
  | true =>
    have habs' : filepathAbs (some cwd) x = some (filepathClean x) := by
      unfold filepathAbs
      rw [if_pos habs]
    rw [cleanPath, habs', Option.getD_some]
    exact (filepathClean_rooted (rooted_isAbs_clean habs)).1
  | false =>
    have habs' : filepathAbs (some cwd) x = some (goJoin cwd x) := by
      unfold filepathAbs
      rw [if_neg (by simp [habs])]
    rw [cleanPath, habs', Option.getD_some]
    have hcne : ¬ cwd = "" := by
      intro he
      subst he
      exact absurd hcwd (by decide)
    rw [goJoin, if_neg (by simp [hcne]), if_neg hcne]
    by_cases hx : x = ""
    · rw [if_pos hx]
      exact (filepathClean_rooted (rooted_isAbs_clean hcwd)).1
    · rw [if_neg hx]
      have h0 : 0 < cwd.toList.length := getElem?_some_lt (isAbsPath_iff.mp hcwd)
      have hroot : isAbsPath (cwd ++ "/" ++ x) = true := by
        rw [isAbsPath_iff]
        show ((cwd.toList ++ ['/']) ++ x.toList)[0]? = some '/'
        rw [List.getElem?_append_left
          (by simp only [List.length_append, List.length_cons, List.length_nil]; omega)]
        rw [List.getElem?_append_left h0]
        exact isAbsPath_iff.mp hcwd
      exact (filepathClean_rooted (rooted_isAbs_clean hroot)).1

/-- Claim C6 (amended): every entry of the except list stored by
AddDenyRule is the canonicalized (absolutize-then-clean) form of the
corresponding caller input: it is absolute whenever the working
directory is available and absolute, and it is always in the image of
the lexical cleaner.  Strict containment within the rule path is not
checked or guaranteed. -/
theorem c6_addDenyRule_amended (cwd path : String) (except : List String) (source : RuleSource)
    (hcwd : isAbsPath cwd = true) :
    (mkDenyRule (some cwd) path except source).Except = except.map (cleanPath (some cwd))
    ∧ ∀ e ∈ (mkDenyRule (some cwd) path except source).Except,
        e.toList[0]? = some '/' ∧ ∃ q, e = filepathClean q := by
  refine ⟨rfl, ?_⟩
  intro e he
  have he' : e ∈ except.map (cleanPath (some cwd)) := he
  obtain ⟨x, _, rfl⟩ := List.mem_map.mp he'
  exact ⟨cleanPath_rooted_of_cwd hcwd x, cleanPath_is_clean _ _⟩

/-- Claim C6, counterexample to the claim as stated: AddDenyRule stores
an exception that is not contained in the rule path; the resolver
performs no containment check.  (The repository test for AddDenyRule
expects exactly this behaviour for a relative exception.) -/
theorem c6_counterexample :
    ∃ kb ∈ AddDenyRule none "/sensitive" ["/elsewhere"] ⟨"", true⟩ [], ∃ r ∈ kb.2,
      r.Action = ActionDeny ∧ ∃ e ∈ r.Except, pathContains none r.Path e = false := by decide

/-- Witness for the amended C6 at a concrete relative exception. -/
theorem c6_addDenyRule_amended_witness :
    ("/cwd/rel" : String).toList[0]? = some '/'
    ∧ ∃ q, ("/cwd/rel" : String) = filepathClean q := by
  have h := (c6_addDenyRule_amended "/cwd" "/s" ["rel"] ⟨"", false⟩ (by decide)).2
  exact h "/cwd/rel" (by decide)

/-
  Lemmas on the conflict-resolution order.
-/

theorem rankCLI_congr {a b : ResolvedRule} (h : a.Source.IsCLI = b.Source.IsCLI) :
    rankCLI a = rankCLI b := by
  rw [rankCLI, rankCLI, h]

theorem rankAct_congr {a b : ResolvedRule} (h : a.Action = b.Action) :
    rankAct a = rankAct b := by
  rw [rankAct, rankAct, h]

theorem ruleLess_iff {a b : ResolvedRule} :
    ruleLess a b = true ↔
      (rankCLI a < rankCLI b ∨ (rankCLI a = rankCLI b ∧
        (rankAct a < rankAct b ∨ (rankAct a = rankAct b ∧
          b.Path.toList.length < a.Path.toList.length)))) := by
  rw [ruleLess, isMoreSpecific, rankCLI, rankCLI, rankAct, rankAct]
  by_cases h1 : a.Source.IsCLI = b.Source.IsCLI
  · rw [if_neg (by simp [h1])]
    by_cases h2 : a.Action = b.Action
    · rw [if_neg (by simp [h2]), h1, h2]
      simp
    · rw [if_pos h2, h1]
      cases ha : a.Action <;> cases hb : b.Action <;> simp_all
  · rw [if_pos h1]
    cases hca : a.Source.IsCLI <;> cases hcb : b.Source.IsCLI <;> simp_all

theorem ruleLess_eq_false_iff {a b : ResolvedRule} :
    ruleLess a b = false ↔
      ¬(rankCLI a < rankCLI b ∨ (rankCLI a = rankCLI b ∧
        (rankAct a < rankAct b ∨ (rankAct a = rankAct b ∧
          b.Path.toList.length < a.Path.toList.length)))) := by
  constructor
  · intro h hcon
    rw [ruleLess_iff.mpr hcon] at h
    exact Bool.noConfusion h
  · intro h
    cases hab : ruleLess a b
    · rfl
    · exact absurd (ruleLess_iff.mp hab) h

theorem ruleLess_irrefl (a : ResolvedRule) : ruleLess a a = false := by
  rw [ruleLess_eq_false_iff]
  omega

theorem ruleLess_trans {a b c : ResolvedRule} (h1 : ruleLess a b = true)
    (h2 : ruleLess b c = true) : ruleLess a c = true := by
  rw [ruleLess_iff] at h1 h2 ⊢
  omega

theorem ruleLess_neg_trans {a b c : ResolvedRule} (h1 : ruleLess a b = false)
    (h2 : ruleLess b c = false) : ruleLess a c = false := by
  rw [ruleLess_eq_false_iff] at h1 h2 ⊢
  omega

theorem chooseWinner_spec : ∀ (rs : List ResolvedRule) (r : ResolvedRule),
    chooseWinner r rs ∈ r :: rs ∧ ∀ x ∈ r :: rs, ruleLess x (chooseWinner r rs) = false := by
  intro rs
  induction rs with
  | nil =>
    intro r
    refine ⟨by simp [chooseWinner], ?_⟩
    intro x hx
    simp only [List.mem_singleton] at hx
    subst hx
    simpa [chooseWinner] using ruleLess_irrefl x
  | cons y ys ih =>
    intro r
    have hstep : chooseWinner r (y :: ys) = chooseWinner (if ruleLess y r then y else r) ys := by
      rw [chooseWinner, List.foldl_cons]
      rfl
    obtain ⟨ihmem, ihmin⟩ := ih (if ruleLess y r then y else r)
    rw [hstep]
    constructor
    · rcases List.mem_cons.mp ihmem with he | hm
      · rw [he]
        split
        · exact List.mem_cons_of_mem _ (List.mem_cons_self _ _)
        · exact List.mem_cons_self _ _
      · exact List.mem_cons_of_mem _ (List.mem_cons_of_mem _ hm)
    · intro x hx
      rcases List.mem_cons.mp hx with rfl | hx2
      · by_cases hyr : ruleLess y x = true
        · cases hxw : ruleLess x (chooseWinner (if ruleLess y x then y else x) ys)
          · rfl
          · exfalso
            have hyacc : y ∈ (if ruleLess y x then y else x) :: ys := by
              rw [if_pos hyr]
              exact List.mem_cons_self _ _
            have honew := ihmin y hyacc
            rw [ruleLess_trans hyr hxw] at honew
            exact Bool.noConfusion honew
        · have hxacc : x ∈ (if ruleLess y x then y else x) :: ys := by
            rw [if_neg (by simpa using hyr)]
            exact List.mem_cons_self _ _
          exact ihmin x hxacc
      · rcases List.mem_cons.mp hx2 with rfl | hx3
        · by_cases hyr : ruleLess x r = true
          · exact ihmin _ (by rw [if_pos hyr]; exact List.mem_cons_self _ _)
          · have hyr' : ruleLess x r = false := by simpa using hyr
            have hracc : r ∈ (if ruleLess x r then x else r) :: ys := by
              rw [if_neg (by simpa using hyr)]
              exact List.mem_cons_self _ _
            exact ruleLess_neg_trans hyr' (ihmin r hracc)
        · exact ihmin x (List.mem_cons_of_mem _ hx3)

/-- Claim C3: for a non-empty bucket of rules sharing one (path, mode)
key, the resolveConflict winner has CLI source when any rule does, has
action ALLOW when any rule in its source tier does, and has a longest
path among the rules of its source tier and action. -/
theorem c3_resolveConflict_precedence (rules : List ResolvedRule) (r : ResolvedRule)
    (rs : List ResolvedRule) (hne : rules = r :: rs)
    (hshare : ∀ x ∈ rules, x.Path = r.Path ∧ x.Mode = r.Mode) :
    ∃ w, resolveConflict rules = some w ∧ w ∈ rules
      ∧ ((∃ x ∈ rules, x.Source.IsCLI = true) → w.Source.IsCLI = true)
      ∧ ((∃ x ∈ rules, x.Source.IsCLI = w.Source.IsCLI ∧ x.Action = ActionAllow) →
          w.Action = ActionAllow)
      ∧ (∀ x ∈ rules, x.Source.IsCLI = w.Source.IsCLI → x.Action = w.Action →
          x.Path.toList.length ≤ w.Path.toList.length) := by
  subst hne
  obtain ⟨hmem, hmin⟩ := chooseWinner_spec rs r
  refine ⟨chooseWinner r rs, rfl, hmem, ?_, ?_, ?_⟩
  · rintro ⟨x, hx, hcli⟩
    by_contra hw
    have hless := hmin x hx
    rw [ruleLess_eq_false_iff] at hless
    have h1 : rankCLI x = 0 := by rw [rankCLI, if_pos hcli]
    have h2 : rankCLI (chooseWinner r rs) = 1 := by
      rw [rankCLI, if_neg (by simpa using hw)]
    rw [h1, h2] at hless
    omega
  · rintro ⟨x, hx, hcli, hallow⟩
    by_contra hw
    have hless := hmin x hx
    rw [ruleLess_eq_false_iff] at hless
    have h1 : rankCLI x = rankCLI (chooseWinner r rs) := rankCLI_congr hcli
    have h2 : rankAct x = 0 := by rw [rankAct, if_pos hallow]
    have h3 : rankAct (chooseWinner r rs) = 1 := by
      rw [rankAct, if_neg hw]
    rw [h1, h2, h3] at hless
    omega
  · intro x hx hcli hact
    have hless := hmin x hx
    rw [ruleLess_eq_false_iff] at hless
    have h1 : rankCLI x = rankCLI (chooseWinner r rs) := rankCLI_congr hcli
    have h2 : rankAct x = rankAct (chooseWinner r rs) := rankAct_congr hact
    rw [h1, h2] at hless
    omega

/-- Witness for C3 at a concrete bucket: a preset deny and a CLI allow
for the same (path, mode) key. -/
theorem c3_resolveConflict_precedence_witness :
    ∃ w, resolveConflict [presetDenyWork, cliAllowWork] = some w
      ∧ w ∈ [presetDenyWork, cliAllowWork]
      ∧ ((∃ x ∈ [presetDenyWork, cliAllowWork], x.Source.IsCLI = true) → w.Source.IsCLI = true)
      ∧ ((∃ x ∈ [presetDenyWork, cliAllowWork],
            x.Source.IsCLI = w.Source.IsCLI ∧ x.Action = ActionAllow) → w.Action = ActionAllow)
      ∧ (∀ x ∈ [presetDenyWork, cliAllowWork],
          x.Source.IsCLI = w.Source.IsCLI → x.Action = w.Action →
            x.Path.toList.length ≤ w.Path.toList.length) :=
  c3_resolveConflict_precedence [presetDenyWork, cliAllowWork] presetDenyWork [cliAllowWork]
    rfl (by decide)

/-
  Carve-outs and conflict records (claim C4).
-/

theorem hasRealConflict_witness (getwd : Option String) :
    ∀ (l : List ResolvedRule), hasRealConflict getwd l = true →
      ∃ a ∈ l, ∃ b ∈ l, ¬ a.Action = b.Action ∧ isCarveOut getwd a b = false := by
  intro l
  induction l with
  | nil => intro h; simp [hasRealConflict] at h
  | cons r rs ih =>
    intro h
    rw [hasRealConflict, Bool.or_eq_true] at h
    rcases h with h | h
    · rw [List.any_eq_true] at h
      obtain ⟨b, hb, hcond⟩ := h
      simp only [decide_eq_true_eq] at hcond
      exact ⟨r, List.mem_cons_self _ _, b, List.mem_cons_of_mem _ hb, hcond⟩
    · obtain ⟨a, ha, b, hb, hab⟩ := ih h
      exact ⟨a, List.mem_cons_of_mem _ ha, b, List.mem_cons_of_mem _ hb, hab⟩

theorem conflicts_from_resolveGo (getwd : Option String) :
    ∀ (s : RuleResolver), ∀ c ∈ (resolveGo getwd s).2.2,
      ∃ a ∈ c.Rules, ∃ b ∈ c.Rules, ¬ a.Action = b.Action ∧ isCarveOut getwd a b = false := by
  intro s
  induction s with
  | nil => intro c hc; simp [resolveGo] at hc
  | cons kb rest ih =>
    intro c hc
    obtain ⟨k, bucket⟩ := kb
    rw [resolveGo.eq_def] at hc
    rcases bucket with _ | ⟨r, rs⟩
    · exact ih c hc
    · simp only [List.mem_append] at hc
      rcases hc with hc | hc
      · split at hc
        · rename_i hreal
          simp only [List.mem_singleton] at hc
          subst hc
          exact hasRealConflict_witness getwd _ hreal.2
        · simp at hc
      · exact ih c hc

/-- Claim C4: isCarveOut is true iff exactly one of the two rules is a
DENY, the other an ALLOW, and the ALLOW path is strictly contained in
the DENY path; same-path opposite-action pairs are never carve-outs; and
every conflict record emitted by Resolve is witnessed by a pair of rules
with differing actions that is not a carve-out. -/
theorem c4_isCarveOut_spec (getwd : Option String) (r1 r2 : ResolvedRule) (s : RuleResolver) :
    (isCarveOut getwd r1 r2 = true ↔
      ((r1.Action = ActionDeny ∧ r2.Action = ActionAllow ∧
          pathContains getwd r1.Path r2.Path = true)
        ∨ (r2.Action = ActionDeny ∧ r1.Action = ActionAllow ∧
          pathContains getwd r2.Path r1.Path = true)))
    ∧ (r1.Path = r2.Path → isCarveOut getwd r1 r2 = false)
    ∧ (∀ c ∈ (Resolve getwd s).2.2, ∃ a ∈ c.Rules, ∃ b ∈ c.Rules,
        ¬ a.Action = b.Action ∧ isCarveOut getwd a b = false) := by
  refine ⟨?_, ?_, ?_⟩
  · rw [isCarveOut]
    by_cases h1 : r1.Action = ActionDeny ∧ r2.Action = ActionAllow
    · rw [if_pos h1]
      constructor
      · intro hp
        exact Or.inl ⟨h1.1, h1.2, hp⟩
      · rintro (⟨_, _, hp⟩ | ⟨_, h2a, _⟩)
        · exact hp
        · rw [h1.1] at h2a
          exact absurd h2a (by decide)
    · rw [if_neg h1]
      by_cases h2 : r2.Action = ActionDeny ∧ r1.Action = ActionAllow
      · rw [if_pos h2]
        constructor
        · intro hp
          exact Or.inr ⟨h2.1, h2.2, hp⟩
        · rintro (⟨h1d, h1a, _⟩ | ⟨_, _, hp⟩)
          · exact absurd ⟨h1d, h1a⟩ h1
          · exact hp
      · rw [if_neg h2]
        constructor
        · intro hfalse
          exact absurd hfalse (by decide)
        · rintro (⟨h1d, h1a, _⟩ | ⟨h2d, h2a, _⟩)
          · exact absurd ⟨h1d, h1a⟩ h1
          · exact absurd ⟨h2d, h2a⟩ h2
  · intro hpath
    rw [isCarveOut]
    split
    · rw [hpath]
      exact pathContains_self getwd r2.Path
    · split
      · rw [hpath]
        exact pathContains_self getwd r2.Path
      · rfl
  · intro c hc
    exact conflicts_from_resolveGo getwd s c hc

/-- Witness for C4: a carve-out pair, and a same-path opposite-action
pair that is not one. -/
theorem c4_isCarveOut_spec_witness :
    isCarveOut none ⟨"/d", 3, ActionDeny, ⟨"", true⟩, false, []⟩
      ⟨"/d/x", 2, ActionAllow, ⟨"", true⟩, false, []⟩ = true
    ∧ isCarveOut none ⟨"/w", 3, ActionDeny, ⟨"", true⟩, false, []⟩
      ⟨"/w", 2, ActionAllow, ⟨"", true⟩, false, []⟩ = false := by
  constructor
  · exact (c4_isCarveOut_spec none ⟨"/d", 3, ActionDeny, ⟨"", true⟩, false, []⟩
      ⟨"/d/x", 2, ActionAllow, ⟨"", true⟩, false, []⟩ []).1.mpr
      (Or.inl ⟨rfl, rfl, by decide⟩)
  · exact (c4_isCarveOut_spec none ⟨"/w", 3, ActionDeny, ⟨"", true⟩, false, []⟩
      ⟨"/w", 2, ActionAllow, ⟨"", true⟩, false, []⟩ []).2.1 rfl

/-
  Output partitioning of Resolve (claim C2).
-/

theorem insertByPath_perm (r : ResolvedRule) :
    ∀ (l : List ResolvedRule), (insertByPath r l).Perm (r :: l) := by
  intro l
  induction l with
  | nil => exact List.Perm.refl _
  | cons x xs ih =>
    rw [insertByPath]
    split
    · exact List.Perm.refl _
    · exact (List.Perm.cons x ih).trans (List.Perm.swap r x xs)

theorem sortRules_perm : ∀ (l : List ResolvedRule), (sortRulesBySpecificity l).Perm l := by
  intro l
  induction l with
  | nil => exact List.Perm.refl _
  | cons x xs ih =>
    rw [sortRulesBySpecificity, List.foldr_cons]
    exact (insertByPath_perm x _).trans (List.Perm.cons x ih)

theorem ruleKey_ext {k k' : RuleKey} (h1 : k.path = k'.path) (h2 : k.mode = k'.mode) :
    k = k' := by
  cases k
  cases k'
  cases h1
  cases h2
  rfl

theorem keyPred_true_iff {k : RuleKey} {r : ResolvedRule} :
    keyPred k r = true ↔ (r.Path = k.path ∧ r.Mode = k.mode) := by
  rw [keyPred, Bool.and_eq_true, beq_iff_eq, beq_iff_eq]

/-- Every rule in the pre-sort write output of Resolve is the winner of a
non-empty bucket with the WRITE bit; symmetrically for the read output
with the READ-and-not-only-WRITE condition. -/
theorem mem_resolveGo (getwd : Option String) :
    ∀ (s : RuleResolver),
      (∀ r ∈ (resolveGo getwd s).1, ∃ kb ∈ s, ∃ hd tl, kb.2 = hd :: tl
        ∧ r = chooseWinner hd tl ∧ ¬ kb.1.mode &&& AccessWrite = 0)
      ∧ (∀ r ∈ (resolveGo getwd s).2.1, ∃ kb ∈ s, ∃ hd tl, kb.2 = hd :: tl
        ∧ r = chooseWinner hd tl ∧ (¬ kb.1.mode &&& AccessRead = 0 ∧ ¬ kb.1.mode = AccessWrite)) := by
  intro s
  induction s with
  | nil => constructor <;> (intro r hr; simp [resolveGo] at hr)
  | cons kb rest ih =>
    obtain ⟨k, bucket⟩ := kb
    constructor
    · intro r hr
      rw [resolveGo.eq_def] at hr
      rcases bucket with _ | ⟨hd, tl⟩
      · obtain ⟨kb', hmem, w⟩ := ih.1 r hr
        exact ⟨kb', List.mem_cons_of_mem _ hmem, w⟩
      · simp only [List.mem_append] at hr
        rcases hr with hr | hr
        · rw [writeContrib] at hr
          split at hr
          · rename_i hbit
            simp only [List.mem_singleton] at hr
            exact ⟨(k, hd :: tl), List.mem_cons_self _ _, hd, tl, rfl, hr, hbit⟩
          · simp at hr
        · obtain ⟨kb', hmem, w⟩ := ih.1 r hr
          exact ⟨kb', List.mem_cons_of_mem _ hmem, w⟩
    · intro r hr
      rw [resolveGo.eq_def] at hr
      rcases bucket with _ | ⟨hd, tl⟩
      · obtain ⟨kb', hmem, w⟩ := ih.2 r hr
        exact ⟨kb', List.mem_cons_of_mem _ hmem, w⟩
      · simp only [List.mem_append] at hr
        rcases hr with hr | hr
        · rw [readContrib] at hr
          split at hr
          · rename_i hbit
            simp only [List.mem_singleton] at hr
            exact ⟨(k, hd :: tl), List.mem_cons_self _ _, hd, tl, rfl, hr, hbit⟩
          · simp at hr
        · obtain ⟨kb', hmem, w⟩ := ih.2 r hr
          exact ⟨kb', List.mem_cons_of_mem _ hmem, w⟩

/-- A bucket winner carries the path and mode of its own key. -/
theorem winner_keyData {s : RuleResolver} (hwf : ResolverWF s) {kb : RuleKey × List ResolvedRule}
    (hmem : kb ∈ s) {hd : ResolvedRule} {tl : List ResolvedRule} (hb : kb.2 = hd :: tl) :
    (chooseWinner hd tl).Path = kb.1.path ∧ (chooseWinner hd tl).Mode = kb.1.mode := by
  have hin : chooseWinner hd tl ∈ kb.2 := by
    rw [hb]
    exact (chooseWinner_spec tl hd).1
  exact hwf.2 kb hmem _ hin

theorem resolveGo_countP_zero (getwd : Option String) (k : RuleKey) :
    ∀ (s : RuleResolver), ResolverWF s → (∀ kb ∈ s, ¬ kb.1 = k) →
      (resolveGo getwd s).1.countP (keyPred k) = 0
      ∧ (resolveGo getwd s).2.1.countP (keyPred k) = 0 := by
  intro s hwf hnot
  constructor
  · rw [List.countP_eq_zero]
    intro r hr
    obtain ⟨kb, hmem, hd, tl, hb, hw, _⟩ := (mem_resolveGo getwd s).1 r hr
    intro hkey
    obtain ⟨hp, hm⟩ := keyPred_true_iff.mp hkey
    obtain ⟨hp', hm'⟩ := winner_keyData hwf hmem hb
    rw [hw] at hp hm
    exact hnot kb hmem (ruleKey_ext (hp'.symm.trans hp) (hm'.symm.trans hm))
  · rw [List.countP_eq_zero]
    intro r hr
    obtain ⟨kb, hmem, hd, tl, hb, hw, _⟩ := (mem_resolveGo getwd s).2 r hr
    intro hkey
    obtain ⟨hp, hm⟩ := keyPred_true_iff.mp hkey
    obtain ⟨hp', hm'⟩ := winner_keyData hwf hmem hb
    rw [hw] at hp hm
    exact hnot kb hmem (ruleKey_ext (hp'.symm.trans hp) (hm'.symm.trans hm))

theorem resolverWF_rest {kb : RuleKey × List ResolvedRule} {rest : RuleResolver}
    (hwf : ResolverWF (kb :: rest)) : ResolverWF rest := by
  constructor
  · have h1 := hwf.1
    rw [List.map_cons, List.nodup_cons] at h1
    exact h1.2
  · exact fun kb' h' => hwf.2 kb' (List.mem_cons_of_mem _ h')

theorem resolverWF_head_notin {kb : RuleKey × List ResolvedRule} {rest : RuleResolver}
    (hwf : ResolverWF (kb :: rest)) : ∀ kb' ∈ rest, ¬ kb'.1 = kb.1 := by
  intro kb' h' he
  have h1 := hwf.1
  rw [List.map_cons, List.nodup_cons] at h1
  exact h1.1 (he ▸ List.mem_map_of_mem (fun x => x.1) h')

/-- The exact per-key count of the pre-sort outputs of Resolve. -/
theorem resolveGo_countP (getwd : Option String) :
    ∀ (s : RuleResolver), ResolverWF s → ∀ kb ∈ s,
      ((resolveGo getwd s).1.countP (keyPred kb.1)
          = if ¬ kb.2 = [] ∧ ¬ kb.1.mode &&& AccessWrite = 0 then 1 else 0)
      ∧ ((resolveGo getwd s).2.1.countP (keyPred kb.1)
          = if ¬ kb.2 = [] ∧ (¬ kb.1.mode &&& AccessRead = 0 ∧ ¬ kb.1.mode = AccessWrite)
            then 1 else 0) := by
  intro s
  induction s with
  | nil =>
    intro _ kb hkb
    simp at hkb
  | cons hd0 rest ih =>
    intro hwf kb hkb
    obtain ⟨k0, b0⟩ := hd0
    have hwfrest := resolverWF_rest hwf
    rcases List.mem_cons.mp hkb with rfl | hmem
    · -- the bucket of the head entry
      have hzero := resolveGo_countP_zero getwd k0 rest hwfrest
        (fun kb' h' => resolverWF_head_notin hwf kb' h')
      rw [resolveGo.eq_def]
      rcases b0 with _ | ⟨r1, b1⟩
      · simp only [List.countP_nil]
        exact ⟨by rw [hzero.1]; simp, by rw [hzero.2]; simp⟩
      · have hwkey := winner_keyData hwf (List.mem_cons_self _ _) (rfl : (r1 :: b1) = r1 :: b1)
        have hkeyp : keyPred k0 (chooseWinner r1 b1) = true :=
          keyPred_true_iff.mpr ⟨hwkey.1, hwkey.2⟩
        constructor
        · rw [List.countP_append, hzero.1, writeContrib]
          split
          · rename_i hbit
            rw [if_pos ⟨by simp, hbit⟩]
            simp [List.countP_cons, hkeyp]
          · rename_i hbit
            rw [if_neg (fun hcon => hbit hcon.2)]
            simp
        · rw [List.countP_append, hzero.2, readContrib]
          split
          · rename_i hbit
            rw [if_pos ⟨by simp, hbit⟩]
            simp [List.countP_cons, hkeyp]
          · rename_i hbit
            rw [if_neg (fun hcon => hbit hcon.2)]
            simp
    · -- a bucket further down; the head contributes nothing to this key
      have hne : ¬ k0 = kb.1 := by
        intro he
        exact resolverWF_head_notin hwf kb hmem he.symm
      have ihcount := ih hwfrest kb hmem
      rw [resolveGo.eq_def]
      rcases b0 with _ | ⟨r1, b1⟩
      · exact ihcount
      · have hwkey := winner_keyData hwf (List.mem_cons_self _ _) (rfl : (r1 :: b1) = r1 :: b1)
        have hkeyp : keyPred kb.1 (chooseWinner r1 b1) = false := by
          rw [Bool.eq_false_iff]
          intro hkey
          obtain ⟨hp, hm⟩ := keyPred_true_iff.mp hkey
          exact hne (ruleKey_ext (hwkey.1.symm.trans hp) (hwkey.2.symm.trans hm))
        constructor
        · rw [List.countP_append, writeContrib]
          split
          · simp [List.countP_cons, hkeyp, ihcount.1]
          · simp [ihcount.1]
        · rw [List.countP_append, readContrib]
          split
          · simp [List.countP_cons, hkeyp, ihcount.2]
          · simp [ihcount.2]

/-- The winner of a non-empty bucket is present in the corresponding
pre-sort output list whenever the mode condition holds. -/
theorem resolveGo_winner_mem (getwd : Option String) :
    ∀ (s : RuleResolver), ∀ kb ∈ s, ∀ hd tl, kb.2 = hd :: tl →
      (¬ kb.1.mode &&& AccessWrite = 0 → chooseWinner hd tl ∈ (resolveGo getwd s).1)
      ∧ ((¬ kb.1.mode &&& AccessRead = 0 ∧ ¬ kb.1.mode = AccessWrite) →
          chooseWinner hd tl ∈ (resolveGo getwd s).2.1) := by
  intro s
  induction s with
  | nil =>
    intro kb hkb
    simp at hkb
  | cons hd0 rest ih =>
    intro kb hkb hd tl hb
    obtain ⟨k0, b0⟩ := hd0
    rcases List.mem_cons.mp hkb with rfl | hmem
    · simp only at hb
      subst hb
      constructor
      · intro hbit
        rw [resolveGo.eq_def]
        simp only [List.mem_append]
        left
        rw [writeContrib, if_pos hbit]
        exact List.mem_cons_self _ _
      · intro hbit
        rw [resolveGo.eq_def]
        simp only [List.mem_append]
        left
        rw [readContrib, if_pos hbit]
        exact List.mem_cons_self _ _
    · have ihm := ih kb hmem hd tl hb
      constructor
      · intro hbit
        rw [resolveGo.eq_def]
        rcases b0 with _ | ⟨r1, b1⟩
        · exact ihm.1 hbit
        · simp only [List.mem_append]
          exact Or.inr (ihm.1 hbit)
      · intro hbit
        rw [resolveGo.eq_def]
        rcases b0 with _ | ⟨r1, b1⟩
        · exact ihm.2 hbit
        · simp only [List.mem_append]
          exact Or.inr (ihm.2 hbit)

theorem addRule_keys (rule : ResolvedRule) : ∀ (s : RuleResolver),
    ((addRule rule s).map (fun kb => kb.1) = s.map (fun kb => kb.1)
      ∧ (⟨rule.Path, rule.Mode⟩ : RuleKey) ∈ s.map (fun kb => kb.1))
    ∨ ((addRule rule s).map (fun kb => kb.1) = s.map (fun kb => kb.1) ++ [⟨rule.Path, rule.Mode⟩]
      ∧ ¬ (⟨rule.Path, rule.Mode⟩ : RuleKey) ∈ s.map (fun kb => kb.1)) := by
  intro s
  induction s with
  | nil => exact Or.inr ⟨rfl, by simp⟩
  | cons kb rest ih =>
    obtain ⟨k, b⟩ := kb
    rw [addRule]
    split
    · rename_i hk
      left
      refine ⟨by simp, ?_⟩
      rw [List.map_cons]
      rw [hk]
      exact List.mem_cons_self _ _
    · rename_i hk
      rcases ih with ⟨he, hm⟩ | ⟨he, hm⟩
      · left
        exact ⟨by simp [he], by simp [hm]⟩
      · right
        refine ⟨by simp [he], ?_⟩
        simp only [List.map_cons, List.mem_cons]
        rintro (heq | hmem)
        · exact hk heq.symm
        · exact hm hmem

/-- The resolver state built through addRule is well-formed: this is the
invariant ResolverWF assumed by the partitioning theorem. -/
theorem addRule_WF (rule : ResolvedRule) : ∀ (s : RuleResolver),
    ResolverWF s → ResolverWF (addRule rule s) := by
  intro s
  induction s with
  | nil =>
    intro _
    constructor
    · simp [addRule]
    · intro kb hkb r hr
      simp only [addRule, List.mem_singleton] at hkb
      subst hkb
      simp only [List.mem_singleton] at hr
      subst hr
      exact ⟨rfl, rfl⟩
  | cons kb0 rest ih =>
    intro hwf
    obtain ⟨k, b⟩ := kb0
    have h1 := hwf.1
    rw [List.map_cons, List.nodup_cons] at h1
    rw [addRule]
    split
    · rename_i hk
      constructor
      · simpa using hwf.1
      · intro kb' hkb' r hr
        rcases List.mem_cons.mp hkb' with rfl | hmem
        · rcases List.mem_append.mp hr with hrb | hrr
          · exact hwf.2 (k, b) (List.mem_cons_self _ _) r hrb
          · simp only [List.mem_singleton] at hrr
            subst hrr
            rw [hk]
            exact ⟨rfl, rfl⟩
        · exact hwf.2 kb' (List.mem_cons_of_mem _ hmem) r hr
    · rename_i hk
      have ihw := ih (resolverWF_rest hwf)
      constructor
      · rw [List.map_cons, List.nodup_cons]
        refine ⟨?_, ihw.1⟩
        rcases addRule_keys rule rest with ⟨he, _⟩ | ⟨he, _⟩
        · rw [he]
          exact h1.1
        · rw [he]
          intro hin
          rcases List.mem_append.mp hin with hin1 | hin2
          · exact h1.1 hin1
          · simp only [List.mem_singleton] at hin2
            exact hk hin2
      · intro kb' hkb' r hr
        rcases List.mem_cons.mp hkb' with rfl | hmem
        · exact hwf.2 (k, b) (List.mem_cons_self _ _) r hr
        · exact ihw.2 kb' hmem r hr

/-- Claim C2: Resolve places each per-key winner into the write-rules
output iff the key mode has the WRITE bit, into the read-rules output
iff the key mode has the READ bit and is not WRITE alone, and emits at
most one rule per (path, mode) key in each output (exactly one when the
bucket is non-empty and the mode condition holds, zero otherwise); every
emitted rule satisfies the mode condition of its list. -/
theorem c2_resolve_partitioning (getwd : Option String) (s : RuleResolver)
    (hwf : ResolverWF s) :
    (∀ r ∈ (Resolve getwd s).1, ¬ r.Mode &&& AccessWrite = 0)
    ∧ (∀ r ∈ (Resolve getwd s).2.1, ¬ r.Mode &&& AccessRead = 0 ∧ ¬ r.Mode = AccessWrite)
    ∧ (∀ kb ∈ s,
        ((Resolve getwd s).1.countP (keyPred kb.1)
            = if ¬ kb.2 = [] ∧ ¬ kb.1.mode &&& AccessWrite = 0 then 1 else 0)
        ∧ ((Resolve getwd s).2.1.countP (keyPred kb.1)
            = if ¬ kb.2 = [] ∧ (¬ kb.1.mode &&& AccessRead = 0 ∧ ¬ kb.1.mode = AccessWrite)
              then 1 else 0))
    ∧ (∀ kb ∈ s, ∀ hd tl, kb.2 = hd :: tl →
        (¬ kb.1.mode &&& AccessWrite = 0 → chooseWinner hd tl ∈ (Resolve getwd s).1)
        ∧ ((¬ kb.1.mode &&& AccessRead = 0 ∧ ¬ kb.1.mode = AccessWrite) →
            chooseWinner hd tl ∈ (Resolve getwd s).2.1)) := by
  have hpw : ((Resolve getwd s).1).Perm (resolveGo getwd s).1 := sortRules_perm _
  have hpr : ((Resolve getwd s).2.1).Perm (resolveGo getwd s).2.1 := sortRules_perm _
  refine ⟨?_, ?_, ?_, ?_⟩
  · intro r hr
    obtain ⟨kb, hmem, hd, tl, hb, hw, hbit⟩ :=
      (mem_resolveGo getwd s).1 r (hpw.mem_iff.mp hr)
    have := (winner_keyData hwf hmem hb).2
    rw [← hw] at this
    rw [this]
    exact hbit
  · intro r hr
    obtain ⟨kb, hmem, hd, tl, hb, hw, hbit⟩ :=
      (mem_resolveGo getwd s).2 r (hpr.mem_iff.mp hr)
    have := (winner_keyData hwf hmem hb).2
    rw [← hw] at this
    rw [this]
    exact hbit
  · intro kb hkb
    have hc := resolveGo_countP getwd s hwf kb hkb
    exact ⟨(hpw.countP_eq _).trans hc.1, (hpr.countP_eq _).trans hc.2⟩
  · intro kb hkb hd tl hb
    have hm := resolveGo_winner_mem getwd s kb hkb hd tl hb
    exact ⟨fun hbit => hpw.mem_iff.mpr (hm.1 hbit),
      fun hbit => hpr.mem_iff.mpr (hm.2 hbit)⟩

/-- Witness for C2 on a concrete two-bucket resolver state: a READ|WRITE
deny bucket and a WRITE-only allow bucket. -/
theorem c2_resolve_partitioning_witness :
    (∀ r ∈ (Resolve none [(⟨"/Users/test", 3⟩, [denyUsersTest]),
        (⟨"/work", 2⟩, [cliAllowWork])]).1, ¬ r.Mode &&& AccessWrite = 0)
    ∧ (∀ r ∈ (Resolve none [(⟨"/Users/test", 3⟩, [denyUsersTest]),
        (⟨"/work", 2⟩, [cliAllowWork])]).2.1,
        ¬ r.Mode &&& AccessRead = 0 ∧ ¬ r.Mode = AccessWrite)
    ∧ (∀ kb ∈ [((⟨"/Users/test", 3⟩ : RuleKey), [denyUsersTest]),
        (⟨"/work", 2⟩, [cliAllowWork])],
        ((Resolve none [(⟨"/Users/test", 3⟩, [denyUsersTest]),
            (⟨"/work", 2⟩, [cliAllowWork])]).1.countP (keyPred kb.1)
            = if ¬ kb.2 = [] ∧ ¬ kb.1.mode &&& AccessWrite = 0 then 1 else 0)
        ∧ ((Resolve none [(⟨"/Users/test", 3⟩, [denyUsersTest]),
            (⟨"/work", 2⟩, [cliAllowWork])]).2.1.countP (keyPred kb.1)
            = if ¬ kb.2 = [] ∧ (¬ kb.1.mode &&& AccessRead = 0 ∧ ¬ kb.1.mode = AccessWrite)
              then 1 else 0))
    ∧ (∀ kb ∈ [((⟨"/Users/test", 3⟩ : RuleKey), [denyUsersTest]),
        (⟨"/work", 2⟩, [cliAllowWork])], ∀ hd tl, kb.2 = hd :: tl →
        (¬ kb.1.mode &&& AccessWrite = 0 →
          chooseWinner hd tl ∈ (Resolve none [(⟨"/Users/test", 3⟩, [denyUsersTest]),
            (⟨"/work", 2⟩, [cliAllowWork])]).1)
        ∧ ((¬ kb.1.mode &&& AccessRead = 0 ∧ ¬ kb.1.mode = AccessWrite) →
            chooseWinner hd tl ∈ (Resolve none [(⟨"/Users/test", 3⟩, [denyUsersTest]),
              (⟨"/work", 2⟩, [cliAllowWork])]).2.1)) :=
  c2_resolve_partitioning none
    [(⟨"/Users/test", 3⟩, [denyUsersTest]), (⟨"/work", 2⟩, [cliAllowWork])]
    (by constructor
        · decide
        · decide)

/-
  The strict-mode double emission of read denies (claim C1).
-/

/-- Claim C1 (the code contradicts it): for the strict-mode config in
which the READ|WRITE deny on /Users/test appears, as the resolver
partitions it, in both the write-rules and the read-rules list, the
generated SBPL profile contains the write deny exactly once but the
read-data deny twice: the strict block re-emits from the read-rules list
what the write-rules pass already emitted.  The repository end-to-end
test expects both counts to be one. -/
theorem c1_strict_double_read_deny :
    (generateSandboxProfile none strictDenyConfig).isSome = true
    ∧ countSub "(deny file-write* (subpath \"/Users/test\"))"
        ((generateSandboxProfile none strictDenyConfig).getD "") = 1
    ∧ countSub "(deny file-read-data (subpath \"/Users/test\"))"
        ((generateSandboxProfile none strictDenyConfig).getD "") = 2 := by
  refine ⟨by decide, by decide, by decide⟩

/-
  The glob-to-SBPL-regex translation (claim C8).
-/

/-- Claim C8: globToSBPLRegex anchors with a caret, translates double
stars to ".*", single stars to a no-separator run, question marks to a
single no-separator character, backslash-escapes the regex
metacharacters, copies everything else, and appends the "($|/)" suffix;
the pattern /Users/STAR/secret lowers to the documented regex. -/
theorem c8_globToSBPLRegex (p : String) :
    ((globToSBPLRegex p).toList[0]? = some '^')
    ∧ (∃ pre, (globToSBPLRegex p).toList = pre ++ ("($|/)").toList)
    ∧ (∀ rest, globCore ('*' :: '*' :: rest) = '.' :: '*' :: globCore rest)
    ∧ (∀ c rest, ¬ c = '*' → globCore ('*' :: c :: rest) =
        '[' :: '^' :: '/' :: ']' :: '*' :: globCore (c :: rest))
    ∧ (globCore ['*'] = ['[', '^', '/', ']', '*'])
    ∧ (∀ rest, globCore ('?' :: rest) = '[' :: '^' :: '/' :: ']' :: globCore rest)
    ∧ (∀ c rest, ¬ c = '*' → ¬ c = '?' → isRegexMeta c = true →
        globCore (c :: rest) = '\\' :: c :: globCore rest)
    ∧ (∀ c rest, ¬ c = '*' → ¬ c = '?' → isRegexMeta c = false →
        globCore (c :: rest) = c :: globCore rest)
    ∧ globToSBPLRegex "/Users/*/secret" = "^/Users/[^/]*/secret($|/)" := by
  refine ⟨?_, ⟨_, rfl⟩, fun rest => rfl, ?_, rfl, fun rest => by simp [globCore], ?_, ?_, by decide⟩
  · rw [show (globToSBPLRegex p).toList
        = '^' :: (globCore p.toList ++ ("($|/)").toList) from rfl]
    exact List.getElem?_cons_zero
  · intro c rest hc
    simp [globCore, hc]
  · intro c rest hstar hq hmeta
    simp [globCore, hstar, hq, hmeta]
  · intro c rest hstar hq hmeta
    simp [globCore, hstar, hq, hmeta]

/-- Witness for C8 at concrete characters and patterns. -/
theorem c8_globToSBPLRegex_witness :
    globCore ('*' :: 'a' :: []) = ['[', '^', '/', ']', '*', 'a']
    ∧ globCore ('(' :: []) = ['\\', '(']
    ∧ globCore ('x' :: []) = ['x']
    ∧ globToSBPLRegex "/Users/*/secret" = "^/Users/[^/]*/secret($|/)" := by
  have h := c8_globToSBPLRegex "/Users/*/secret"
  refine ⟨?_, ?_, ?_, h.2.2.2.2.2.2.2.2⟩
  · rw [h.2.2.2.1 'a' [] (by decide)]
    decide
  · rw [h.2.2.2.2.2.2.1 '(' [] (by decide) (by decide) (by decide)]
    decide
  · rw [h.2.2.2.2.2.2.2.1 'x' [] (by decide) (by decide) (by decide)]
    decide

/-
  The Linux write-allowlist emission (claim C9).
-/

theorem writeAllowLoop_rules_deny_free (getwd : Option String) (stat : String → Option Bool)
    (dset : List String) :
    ∀ (l : List String), ∀ r ∈ (writeAllowLoop getwd stat dset l).rules,
      shouldDenyWrite dset r.rulePath = false := by
  intro l
  induction l with
  | nil => intro r hr; simp [writeAllowLoop] at hr
  | cons p rest ih =>
    intro r hr
    simp only [writeAllowLoop] at hr
    split at hr
    · exact ih r hr
    · rename_i hdeny
      have hdeny' : shouldDenyWrite dset (absOr getwd p) = false := by
        simpa using hdeny
      split at hr
      · exact ih r hr
      · split at hr <;>
          (rcases List.mem_cons.mp hr with rfl | hr2
           · simpa [LandlockRule.rulePath] using hdeny'
           · exact ih r hr2)
      · split at hr <;>
          (rcases List.mem_cons.mp hr with rfl | hr2
           · simpa [LandlockRule.rulePath] using hdeny'
           · exact ih r hr2)

theorem writeAllowLoop_rules_mono (getwd : Option String) (stat : String → Option Bool)
    (dset : List String) (p : String) (rest : List String) :
    ∀ r ∈ (writeAllowLoop getwd stat dset rest).rules,
      r ∈ (writeAllowLoop getwd stat dset (p :: rest)).rules := by
  intro r hr
  simp only [writeAllowLoop]
  split
  · exact hr
  · split
    · exact hr
    · split
      · exact List.mem_cons_of_mem _ hr
      · exact List.mem_cons_of_mem _ hr
    · split
      · exact List.mem_cons_of_mem _ hr
      · exact List.mem_cons_of_mem _ hr

theorem writeAllowLoop_diags_mono (getwd : Option String) (stat : String → Option Bool)
    (dset : List String) (p : String) (rest : List String) :
    ∀ d ∈ (writeAllowLoop getwd stat dset rest).diags,
      d ∈ (writeAllowLoop getwd stat dset (p :: rest)).diags := by
  intro d hd
  simp only [writeAllowLoop]
  split
  · exact List.mem_cons_of_mem _ hd
  · split
    · exact hd
    · split
      · exact hd
      · exact hd
    · split
      · exact hd
      · exact hd

theorem writeAllowLoop_skip_diag (getwd : Option String) (stat : String → Option Bool)
    (dset : List String) :
    ∀ (l : List String) (path : String), path ∈ l →
      shouldDenyWrite dset (absOr getwd path) = true →
      skipDiag path ∈ (writeAllowLoop getwd stat dset l).diags := by
  intro l
  induction l with
  | nil => intro path h; simp at h
  | cons p rest ih =>
    intro path hmem hdeny
    rcases List.mem_cons.mp hmem with rfl | hmem2
    · simp only [writeAllowLoop]
      rw [if_pos hdeny]
      exact List.mem_cons_self _ _
    · exact writeAllowLoop_diags_mono getwd stat dset p rest _ (ih path hmem2 hdeny)

theorem writeAllowLoop_installs (getwd : Option String) (stat : String → Option Bool)
    (dset : List String) :
    ∀ (l : List String) (path : String), path ∈ l →
      shouldDenyWrite dset (absOr getwd path) = false →
      ∀ d, stat (absOr getwd path) = some d →
        ∃ r ∈ (writeAllowLoop getwd stat dset l).rules, r.rulePath = absOr getwd path := by
  intro l
  induction l with
  | nil => intro path h; simp at h
  | cons p rest ih =>
    intro path hmem hdeny d hstat
    rcases List.mem_cons.mp hmem with rfl | hmem2
    · cases d
      · by_cases hdev : goHasPref (absOr getwd path) "/dev/" = true
        · refine ⟨LandlockRule.rwFilesIoctl (absOr getwd path), ?_, rfl⟩
          simp [writeAllowLoop, hdeny, hstat, hdev]
        · refine ⟨LandlockRule.rwFilesPlain (absOr getwd path), ?_, rfl⟩
          simp [writeAllowLoop, hdeny, hstat, hdev]
      · by_cases hdev1 : absOr getwd path = "/dev"
        · rw [hdev1] at hdeny hstat
          refine ⟨LandlockRule.rwDirsIoctl "/dev", ?_, by rw [hdev1]; rfl⟩
          simp [writeAllowLoop, hdeny, hstat, hdev1]
        · by_cases hdev2 : goHasPref (absOr getwd path) "/dev/" = true
          · refine ⟨LandlockRule.rwDirsIoctl (absOr getwd path), ?_, rfl⟩
            simp [writeAllowLoop, hdeny, hstat, hdev1, hdev2]
          · refine ⟨LandlockRule.rwDirsRefer (absOr getwd path), ?_, rfl⟩
            simp [writeAllowLoop, hdeny, hstat, hdev1, hdev2]
    · obtain ⟨r, hr, hpath⟩ := ih path hmem2 hdeny d hstat
      exact ⟨r, writeAllowLoop_rules_mono getwd stat dset p rest r hr, hpath⟩

/-- Claim C9: in the Linux write-allowlist emission, an allowed path
whose absolutized form equals a non-glob write-deny path or lies under
one gets no Landlock read+write rule (no installed rule carries that
path) and produces the informational diagnostic; an allowed path that
passes the deny check and exists (stat succeeds) receives a read+write
rule for its absolutized form. -/
theorem c9_write_allow_skip (getwd : Option String) (stat : String → Option Bool)
    (denyRules : List DenyRule) (allowedPaths : List String) (path : String)
    (hmem : path ∈ allowedPaths) :
    (shouldDenyWrite (writeDenySet getwd denyRules) (absOr getwd path) = true →
      (∀ r ∈ (writeAllowLoop getwd stat (writeDenySet getwd denyRules) allowedPaths).rules,
        ¬ r.rulePath = absOr getwd path)
      ∧ skipDiag path ∈
          (writeAllowLoop getwd stat (writeDenySet getwd denyRules) allowedPaths).diags)
    ∧ (shouldDenyWrite (writeDenySet getwd denyRules) (absOr getwd path) = false →
        ∀ d, stat (absOr getwd path) = some d →
          ∃ r ∈ (writeAllowLoop getwd stat (writeDenySet getwd denyRules) allowedPaths).rules,
            r.rulePath = absOr getwd path) := by
  constructor
  · intro hdeny
    constructor
    · intro r hr heq
      have hfree := writeAllowLoop_rules_deny_free getwd stat
        (writeDenySet getwd denyRules) allowedPaths r hr
      rw [heq, hdeny] at hfree
      exact Bool.noConfusion hfree
    · exact writeAllowLoop_skip_diag getwd stat (writeDenySet getwd denyRules)
        allowedPaths path hmem hdeny
  · intro hdeny d hstat
    exact writeAllowLoop_installs getwd stat (writeDenySet getwd denyRules)
      allowedPaths path hmem hdeny d hstat

/-- Witness for C9: a deny on /deny drops the allow for /deny/sub with a
diagnostic, while /ok receives a read+write rule. -/
theorem c9_write_allow_skip_witness :
    ((∀ r ∈ (writeAllowLoop (some "/") (fun _ => some true)
        (writeDenySet (some "/") [⟨"/deny", 3, false, []⟩]) ["/deny/sub", "/ok"]).rules,
        ¬ r.rulePath = absOr (some "/") "/deny/sub")
      ∧ skipDiag "/deny/sub" ∈ (writeAllowLoop (some "/") (fun _ => some true)
          (writeDenySet (some "/") [⟨"/deny", 3, false, []⟩]) ["/deny/sub", "/ok"]).diags)
    ∧ (∃ r ∈ (writeAllowLoop (some "/") (fun _ => some true)
        (writeDenySet (some "/") [⟨"/deny", 3, false, []⟩]) ["/deny/sub", "/ok"]).rules,
        r.rulePath = absOr (some "/") "/ok") := by
  constructor
  · exact (c9_write_allow_skip (some "/") (fun _ => some true) [⟨"/deny", 3, false, []⟩]
      ["/deny/sub", "/ok"] "/deny/sub" (by decide)).1 (by decide)
  · exact (c9_write_allow_skip (some "/") (fun _ => some true) [⟨"/deny", 3, false, []⟩]
      ["/deny/sub", "/ok"] "/ok" (by decide)).2 (by decide) true rfl

end Cage
